import Mathlib

/-!
Verification development for the service-center region matcher.

The definitions below are a shallow embedding of the program's core:
the string normalizer, the Levenshtein edit distance, the alias table,
and the flexible region matcher, together with the static catalog data.
Strings are handled as Lean `String`s (lists of Unicode scalar values),
which coincides with the program's UTF-16 strings on the Basic
Multilingual Plane characters the program manipulates.
-/

namespace SvcCenter

/-- JavaScript regular-expression whitespace class (`\s`), which is also
the character set removed by `String.prototype.trim`: space, the control
whitespace U+0009..U+000D, NBSP, Ogham space mark, the U+2000..U+200A
range, line and paragraph separators, narrow no-break space, medium
mathematical space, ideographic space and the BOM. -/
def isJsWs (c : Char) : Bool :=
  decide (c.toNat = 32) || (decide (9 ≤ c.toNat) && decide (c.toNat ≤ 13)) ||
  decide (c.toNat = 160) || decide (c.toNat = 5760) ||
  (decide (8192 ≤ c.toNat) && decide (c.toNat ≤ 8202)) ||
  decide (c.toNat = 8232) || decide (c.toNat = 8233) ||
  decide (c.toNat = 8239) || decide (c.toNat = 8287) ||
  decide (c.toNat = 12288) || decide (c.toNat = 65279)

/-- Per-character case folding of `String.prototype.toLowerCase` on the
ASCII and Latin-1 repertoire used by the program: uppercase ASCII letters
and the precomposed Latin-1 uppercase letters U+00C0..U+00DE (except the
multiplication sign U+00D7) map to their lowercase forms 32 code points
higher; every other character is unchanged. -/
def jsLowerChar (c : Char) : Char :=
  if 65 ≤ c.toNat ∧ c.toNat ≤ 90 then Char.ofNat (c.toNat + 32)
  else if 192 ≤ c.toNat ∧ c.toNat ≤ 222 ∧ c.toNat ≠ 215 then Char.ofNat (c.toNat + 32)
  else c

/-- A character in the Unicode combining-diacritical-marks block
U+0300..U+036F removed by the accent-stripping step. -/
def isCombining (c : Char) : Bool :=
  decide (768 ≤ c.toNat) && decide (c.toNat ≤ 879)

/-- Canonical (NFD) decompositions of the precomposed Latin-1 lowercase
letters: base letter followed by a combining mark. -/
def nfdTable : List (Char × List Char) :=
  [('à', ['a', '̀']), ('á', ['a', '́']), ('â', ['a', '̂']),
   ('ã', ['a', '̃']), ('ä', ['a', '̈']), ('å', ['a', '̊']),
   ('ç', ['c', '̧']),
   ('è', ['e', '̀']), ('é', ['e', '́']), ('ê', ['e', '̂']),
   ('ë', ['e', '̈']),
   ('ì', ['i', '̀']), ('í', ['i', '́']), ('î', ['i', '̂']),
   ('ï', ['i', '̈']),
   ('ñ', ['n', '̃']),
   ('ò', ['o', '̀']), ('ó', ['o', '́']), ('ô', ['o', '̂']),
   ('õ', ['o', '̃']), ('ö', ['o', '̈']),
   ('ù', ['u', '̀']), ('ú', ['u', '́']), ('û', ['u', '̂']),
   ('ü', ['u', '̈']),
   ('ý', ['y', '́']), ('ÿ', ['y', '̈'])]

/-- Per-character Unicode canonical decomposition (`normalize('NFD')`)
on the program's character repertoire. -/
def nfdChar (c : Char) : List Char :=
  (nfdTable.lookup c).getD [c]

/-- One character of the `replace(/[^a-z0-9\s]/g, ' ')` step: a character
that is not an ASCII lowercase letter, an ASCII digit or whitespace
becomes a single space. -/
def replaceChar (c : Char) : Char :=
  if (97 ≤ c.toNat ∧ c.toNat ≤ 122) ∨ (48 ≤ c.toNat ∧ c.toNat ≤ 57) ∨ isJsWs c = true
  then c else ' '

/-- The `replace(/\s+/g, ' ')` step: every maximal run of whitespace
characters becomes a single space. -/
def collapseWs : List Char → List Char
  | [] => []
  | [c] => if isJsWs c then [' '] else [c]
  | c :: d :: cs =>
    if isJsWs c && isJsWs d then collapseWs (d :: cs)
    else (if isJsWs c then ' ' else c) :: collapseWs (d :: cs)

/-- Remove trailing whitespace (the right half of `trim`). -/
def dropTrailingWs : List Char → List Char
  | [] => []
  | c :: cs =>
    let r := dropTrailingWs cs
    if r.isEmpty then (if isJsWs c then [] else [c]) else c :: r

/-- The `String.prototype.trim` step: remove leading and trailing
whitespace. -/
def trimWs (l : List Char) : List Char :=
  dropTrailingWs (l.dropWhile isJsWs)

/-- Lowercasing, NFD decomposition and combining-mark stripping: the
first three stages of the normalizer. -/
def step123 (l : List Char) : List Char :=
  ((l.map jsLowerChar).flatMap nfdChar).filter (fun c => !isCombining c)

/-- The whole normalizer pipeline on a list of characters. -/
def normalizeL (l : List Char) : List Char :=
  trimWs (collapseWs ((step123 l).map replaceChar))

/-- The normalizer: lowercase, strip accents via NFD, replace
non-alphanumeric non-whitespace characters by spaces, collapse
whitespace runs, and trim. -/
def normalize (s : String) : String :=
  String.mk (normalizeL s.data)

/-- Cell (i, j) of the Levenshtein dynamic-programming table for the
(already normalized) strings `a` and `b`: first row and column hold the
indices, and an inner cell is the minimum of the delete, insert and
substitute costs, with substitution free exactly when the characters
`a[i-1]` and `b[j-1]` agree. -/
def dpCell (a b : List Char) : Nat → Nat → Nat
  | 0, j => j
  | i + 1, 0 => i + 1
  | i + 1, j + 1 =>
    min (dpCell a b i (j + 1) + 1)
      (min (dpCell a b (i + 1) j + 1)
        (dpCell a b i j + (if a.get? i = b.get? j then 0 else 1)))

/-- The body of `levenshtein` after both arguments were normalized:
early return of the other length when one side is empty, otherwise the
bottom-right DP cell. -/
def levList (a b : List Char) : Nat :=
  if a.length = 0 then b.length
  else if b.length = 0 then a.length
  else dpCell a b a.length b.length

/-- The fuzzy distance: normalize both inputs, then compute the edit
distance between them. -/
def levenshtein (a b : String) : Nat :=
  levList (normalize a).data (normalize b).data

/-- Substring containment (`hay.includes(needle)`) on lists of
characters. -/
def includesL (hay needle : List Char) : Bool :=
  match hay with
  | [] => needle.isEmpty
  | c :: t => needle.isPrefixOf (c :: t) || includesL t needle

/-- The `String.prototype.includes` test: substring containment. -/
def includesStr (s sub : String) : Bool :=
  includesL s.data sub.data

/-- One record of the `serviceCenters` catalog. -/
structure ServiceCenter where
  region : String
  name : String
  address : String
  products : String
  image : String
deriving DecidableEq

/-- The single configured service center. -/
def samtek : ServiceCenter :=
  { region := "Región Metropolitana de Santiago"
    name := "SAMTEK"
    address := "Nueva Tajamar 481, Torre Sur, Oficina 1601. Las Condes"
    products := "Notebook, Desktop PC, All-in-one PCs, Eee Pad, Eee"
    image := "samtek.png" }

/-- The static catalog. -/
def serviceCenters : List ServiceCenter := [samtek]

/-- The alias dictionary exactly as written in the source: note that its
key is the raw, accented region string. -/
def REGION_ALIASES : List (String × List String) :=
  [("región metropolitana de santiago",
    ["region metropolitana de santiago",
     "rm",
     "metropolitana",
     "santiago",
     "region metropolita na de santiago",
     "region metropolotana de santiago",
     "region metropolitana",
     "metropolitana de santiago"])]

/-- The precomputed normalized catalog keys. -/
def REGION_KEYS : List String :=
  serviceCenters.map (fun sc => normalize sc.region)

/-- The lookup `REGION_ALIASES[key] || []`: the registered aliases for a
canonical region key, or the empty list when the key is absent. -/
def aliasesFor (key : String) : List String :=
  (REGION_ALIASES.lookup key).getD []

/-- The per-entry matcher `isAliasMatch`: the disjunction of the clauses
in source order — exact canonical equality, alias canonical equality,
length-gated substring containment in either direction, fuzzy distance
to the canonical key, and fuzzy distance to an alias. -/
def isAliasMatch (input regionName : String) : Bool :=
  (normalize input == normalize regionName) ||
  (aliasesFor (normalize regionName)).any (fun a => normalize a == normalize input) ||
  (decide (6 ≤ (normalize input).length) &&
    (includesStr (normalize regionName) (normalize input) ||
     includesStr (normalize input) (normalize regionName))) ||
  decide (levenshtein (normalize input) (normalize regionName) ≤ 2) ||
  (aliasesFor (normalize regionName)).any
    (fun a => decide (levenshtein (normalize input) a ≤ 2))

/-- The matcher `findByRegionFlexible` generalized to an arbitrary
catalog: first a pass looking for an exact normalized match, then a pass
applying `isAliasMatch`, and `null` (here `none`) when both fail. -/
def findByRegionFlexibleIn (catalog : List ServiceCenter) (input : String) :
    Option ServiceCenter :=
  match catalog.find? (fun sc => normalize sc.region == normalize input) with
  | some m => some m
  | none => catalog.find? (fun sc => isAliasMatch input sc.region)

/-- The matcher as in the source, over the static catalog. -/
def findByRegionFlexible (input : String) : Option ServiceCenter :=
  findByRegionFlexibleIn serviceCenters input

/-- The variant of `isAliasMatch` with the two alias-based checks (alias
canonical equality and alias fuzzy distance) deleted. -/
def isAliasMatchNoAliasChecks (input regionName : String) : Bool :=
  (normalize input == normalize regionName) ||
  (decide (6 ≤ (normalize input).length) &&
    (includesStr (normalize regionName) (normalize input) ||
     includesStr (normalize input) (normalize regionName))) ||
  decide (levenshtein (normalize input) (normalize regionName) ≤ 2)

/-- The matcher built from `isAliasMatchNoAliasChecks`. -/
def findByRegionFlexibleNoAliasChecks (input : String) : Option ServiceCenter :=
  match serviceCenters.find? (fun sc => normalize sc.region == normalize input) with
  | some m => some m
  | none => serviceCenters.find? (fun sc => isAliasMatchNoAliasChecks input sc.region)

/-- A character that can occur in the normalizer's output: an ASCII
lowercase letter, an ASCII digit, or a plain space. -/
def isGood (c : Char) : Bool :=
  (decide (97 ≤ c.toNat) && decide (c.toNat ≤ 122)) ||
  (decide (48 ≤ c.toNat) && decide (c.toNat ≤ 57)) ||
  decide (c.toNat = 32)

/-- Whitespace shape of a collapsed string: every whitespace character
is a plain space and no two adjacent characters are both whitespace. -/
def wsNormed : List Char → Bool
  | [] => true
  | [c] => !isJsWs c || c == ' '
  | c :: d :: cs => (!isJsWs c || (c == ' ' && !isJsWs d)) && wsNormed (d :: cs)

/-! ### Character-level facts -/

theorem good_jsLowerChar {c : Char} (h : isGood c = true) : jsLowerChar c = c := by
  simp only [isGood, Bool.or_eq_true, Bool.and_eq_true, decide_eq_true_eq] at h
  unfold jsLowerChar
  rw [if_neg (by omega), if_neg (by omega)]

theorem lookup_none_of_keys {β : Type} {c : Char} (t : List (Char × β))
    (h : ∀ p ∈ t, ¬ c = p.1) : t.lookup c = none := by
  rw [List.lookup_eq_none_iff]
  intro p hp
  simpa using h p hp

theorem nfdTable_keys : ∀ p ∈ nfdTable, 224 ≤ p.1.toNat := by decide

theorem good_nfdChar {c : Char} (h : isGood c = true) : nfdChar c = [c] := by
  simp only [isGood, Bool.or_eq_true, Bool.and_eq_true, decide_eq_true_eq] at h
  have hl : nfdTable.lookup c = none := by
    apply lookup_none_of_keys
    intro p hp he
    have h224 := nfdTable_keys p hp
    rw [← he] at h224
    omega
  simp [nfdChar, hl]

theorem good_notCombining {c : Char} (h : isGood c = true) : isCombining c = false := by
  simp only [isGood, Bool.or_eq_true, Bool.and_eq_true, decide_eq_true_eq] at h
  have h768 : ¬ (768 ≤ c.toNat) := by omega
  simp [isCombining, h768]

theorem isJsWs_space : isJsWs ' ' = true := by decide

theorem good_replaceChar {c : Char} (h : isGood c = true) : replaceChar c = c := by
  simp only [isGood, Bool.or_eq_true, Bool.and_eq_true, decide_eq_true_eq] at h
  have hcond : (97 ≤ c.toNat ∧ c.toNat ≤ 122) ∨ (48 ≤ c.toNat ∧ c.toNat ≤ 57) ∨
      isJsWs c = true := by
    by_cases h32 : c.toNat = 32
    · refine Or.inr (Or.inr ?_)
      simp only [isJsWs, Bool.or_eq_true, Bool.and_eq_true, decide_eq_true_eq]
      omega
    · rcases h with (h | h) | h
      · exact Or.inl h
      · exact Or.inr (Or.inl h)
      · exact absurd h h32
  simp [replaceChar, hcond]

theorem replaceChar_good {c : Char} (h : isJsWs (replaceChar c) = false) :
    isGood (replaceChar c) = true := by
  unfold replaceChar at h ⊢
  by_cases hc : (97 ≤ c.toNat ∧ c.toNat ≤ 122) ∨ (48 ≤ c.toNat ∧ c.toNat ≤ 57) ∨
      isJsWs c = true
  · rw [if_pos hc] at h ⊢
    rcases hc with h1 | h1 | h1
    · simp only [isGood, Bool.or_eq_true, Bool.and_eq_true, decide_eq_true_eq]
      omega
    · simp only [isGood, Bool.or_eq_true, Bool.and_eq_true, decide_eq_true_eq]
      omega
    · rw [h1] at h
      cases h
  · rw [if_neg hc] at h
    rw [isJsWs_space] at h
    cases h

/-! ### Whitespace collapsing -/

theorem collapseWs_head_cons (cs : List Char) : ∀ c : Char,
    (collapseWs (c :: cs)).head? = some (if isJsWs c then ' ' else c) := by
  induction cs with
  | nil =>
    intro c
    by_cases h : isJsWs c <;> simp [collapseWs, h]
  | cons d ds ih =>
    intro c
    by_cases hc : isJsWs c <;> by_cases hd : isJsWs d <;>
      simp [collapseWs, hc, hd, ih d]

theorem collapseWs_wsNormed : ∀ l : List Char, wsNormed (collapseWs l) = true
  | [] => rfl
  | [c] => by
    cases h : isJsWs c
    · simp [collapseWs, h, wsNormed]
    · simp [collapseWs, h, wsNormed, isJsWs_space]
  | c :: d :: cs => by
    have ih := collapseWs_wsNormed (d :: cs)
    cases hc : isJsWs c <;> cases hd : isJsWs d
    · rcases hR : collapseWs (d :: cs) with _ | ⟨r, R⟩
      · simp [collapseWs, hc, hd, hR, wsNormed]
      · rw [hR] at ih
        simp [collapseWs, hc, hd, hR, wsNormed, ih]
    · rcases hR : collapseWs (d :: cs) with _ | ⟨r, R⟩
      · simp [collapseWs, hc, hd, hR, wsNormed]
      · rw [hR] at ih
        simp [collapseWs, hc, hd, hR, wsNormed, ih]
    · have hh := collapseWs_head_cons cs d
      rw [if_neg (by simp [hd])] at hh
      rcases hR : collapseWs (d :: cs) with _ | ⟨r, R⟩
      · simp [collapseWs, hc, hd, hR, wsNormed, isJsWs_space]
      · rw [hR] at hh ih
        simp only [List.head?_cons, Option.some.injEq] at hh
        subst hh
        simp [collapseWs, hc, hd, hR, wsNormed, ih, isJsWs_space]
    · simpa [collapseWs, hc, hd] using ih

theorem collapseWs_mem : ∀ l : List Char, ∀ c ∈ collapseWs l,
    c = ' ' ∨ (c ∈ l ∧ isJsWs c = false)
  | [] => by simp [collapseWs]
  | [a] => by
    cases h : isJsWs a
    · simp [collapseWs, h]
    · simp [collapseWs, h]
  | a :: d :: cs => by
    intro c hc
    have ih := collapseWs_mem (d :: cs)
    cases ha : isJsWs a <;> cases hd : isJsWs d
    · rw [collapseWs, if_neg (by simp [ha]), if_neg (by simp [ha])] at hc
      rcases List.mem_cons.mp hc with h | h
      · exact Or.inr ⟨by simp [h], by rw [h]; exact ha⟩
      · rcases ih c h with h' | ⟨hm, hw⟩
        · exact Or.inl h'
        · exact Or.inr ⟨List.mem_cons_of_mem a hm, hw⟩
    · rw [collapseWs, if_neg (by simp [ha]), if_neg (by simp [ha])] at hc
      rcases List.mem_cons.mp hc with h | h
      · exact Or.inr ⟨by simp [h], by rw [h]; exact ha⟩
      · rcases ih c h with h' | ⟨hm, hw⟩
        · exact Or.inl h'
        · exact Or.inr ⟨List.mem_cons_of_mem a hm, hw⟩
    · rw [collapseWs, if_neg (by simp [hd]), if_pos ha] at hc
      rcases List.mem_cons.mp hc with h | h
      · exact Or.inl h
      · rcases ih c h with h' | ⟨hm, hw⟩
        · exact Or.inl h'
        · exact Or.inr ⟨List.mem_cons_of_mem a hm, hw⟩
    · rw [collapseWs, if_pos (by simp [ha, hd])] at hc
      rcases ih c hc with h | ⟨hm, hw⟩
      · exact Or.inl h
      · exact Or.inr ⟨List.mem_cons_of_mem a hm, hw⟩

theorem collapseWs_fix : ∀ l : List Char, wsNormed l = true → collapseWs l = l
  | [] => fun _ => rfl
  | [c] => by
    intro h
    simp only [wsNormed, Bool.or_eq_true, Bool.not_eq_true', beq_iff_eq] at h
    rcases h with h | h
    · simp [collapseWs, h]
    · subst h
      simp [collapseWs, isJsWs_space]
  | c :: d :: cs => by
    intro h
    simp only [wsNormed, Bool.and_eq_true, Bool.or_eq_true, Bool.not_eq_true',
      beq_iff_eq] at h
    obtain ⟨hcond, hrest⟩ := h
    have ih := collapseWs_fix (d :: cs) (by
      simpa [wsNormed, Bool.and_eq_true] using hrest)
    rcases hcond with hc | ⟨hsp, hd⟩
    · rw [collapseWs, if_neg (by simp [hc]), if_neg (by simp [hc]), ih]
    · subst hsp
      rw [collapseWs, if_neg (by simp [hd]), if_pos isJsWs_space, ih]

/-! ### Trimming -/

theorem wsNormed_one (c : Char) : wsNormed [c] = (!isJsWs c || c == ' ') := rfl

theorem wsNormed_two (c d : Char) (l : List Char) :
    wsNormed (c :: d :: l) =
      ((!isJsWs c || (c == ' ' && !isJsWs d)) && wsNormed (d :: l)) := rfl

theorem dropTrailingWs_cons (c : Char) (cs : List Char) :
    dropTrailingWs (c :: cs) =
      if (dropTrailingWs cs).isEmpty then (if isJsWs c then [] else [c])
      else c :: dropTrailingWs cs := rfl

theorem wsNormed_append_left : ∀ l t : List Char, wsNormed (l ++ t) = true →
    wsNormed l = true
  | [], _, _ => rfl
  | [c], t, h => by
    cases t with
    | nil => simpa using h
    | cons d ds =>
      rw [List.cons_append, List.nil_append, wsNormed_two, Bool.and_eq_true] at h
      rw [wsNormed_one]
      cases hc : isJsWs c
      · simp
      · have h1 := h.1
        rw [hc] at h1
        simp only [Bool.not_true, Bool.false_or, Bool.and_eq_true, beq_iff_eq] at h1
        simp [h1.1]
  | c :: e :: l', t, h => by
    have ih := wsNormed_append_left (e :: l') t
    rw [List.cons_append, List.cons_append, wsNormed_two, Bool.and_eq_true] at h
    rw [wsNormed_two, Bool.and_eq_true]
    exact ⟨h.1, ih (by rw [List.cons_append]; exact h.2)⟩

theorem prefix_wsNormed {l' l : List Char} (h : l' <+: l) (hn : wsNormed l = true) :
    wsNormed l' = true := by
  obtain ⟨t, rfl⟩ := h
  exact wsNormed_append_left l' t hn

theorem wsNormed_tail {c : Char} {l : List Char} (h : wsNormed (c :: l) = true) :
    wsNormed l = true := by
  cases l with
  | nil => rfl
  | cons d ds =>
    rw [wsNormed_two, Bool.and_eq_true] at h
    exact h.2

theorem wsNormed_dropWhile : ∀ l : List Char, wsNormed l = true →
    wsNormed (l.dropWhile isJsWs) = true
  | [], _ => rfl
  | c :: cs, h => by
    cases hc : isJsWs c
    · rwa [List.dropWhile_cons_of_neg (by simp [hc])]
    · rw [List.dropWhile_cons_of_pos (by simp [hc])]
      exact wsNormed_dropWhile cs (wsNormed_tail h)

theorem dropWhile_head_not : ∀ (l : List Char) (c : Char),
    (l.dropWhile isJsWs).head? = some c → isJsWs c = false
  | [], c => by simp
  | a :: as, c => by
    intro h
    cases ha : isJsWs a
    · rw [List.dropWhile_cons_of_neg (by simp [ha]), List.head?_cons,
        Option.some.injEq] at h
      rw [← h]
      exact ha
    · rw [List.dropWhile_cons_of_pos (by simp [ha])] at h
      exact dropWhile_head_not as c h

theorem dropTrailingWs_front : ∀ l : List Char, dropTrailingWs l <+: l
  | [] => List.prefix_rfl
  | c :: cs => by
    have ih := dropTrailingWs_front cs
    rw [dropTrailingWs_cons]
    by_cases hr : (dropTrailingWs cs).isEmpty
    · rw [if_pos hr]
      cases hc : isJsWs c
      · rw [if_neg (by simp [hc])]
        exact List.cons_prefix_cons.mpr ⟨rfl, List.nil_prefix⟩
      · rw [if_pos rfl]
        exact List.nil_prefix
    · rw [if_neg hr]
      exact List.cons_prefix_cons.mpr ⟨rfl, ih⟩

theorem dropTrailingWs_last : ∀ (l : List Char) (c : Char),
    (dropTrailingWs l).getLast? = some c → isJsWs c = false
  | [], c => by simp [dropTrailingWs]
  | a :: as, c => by
    intro h
    rw [dropTrailingWs_cons] at h
    by_cases hr : (dropTrailingWs as).isEmpty
    · rw [if_pos hr] at h
      cases ha : isJsWs a
      · rw [if_neg (by simp [ha])] at h
        simp only [List.getLast?_singleton, Option.some.injEq] at h
        rw [← h]
        exact ha
      · rw [if_pos ha] at h
        simp at h
    · rw [if_neg hr] at h
      rcases hE : dropTrailingWs as with _ | ⟨b, bs⟩
      · rw [hE] at hr
        simp at hr
      · rw [hE, List.getLast?_cons_cons] at h
        apply dropTrailingWs_last as c
        rw [hE]
        exact h

theorem dropTrailingWs_fix : ∀ l : List Char,
    (∀ c, l.getLast? = some c → isJsWs c = false) → dropTrailingWs l = l
  | [] => fun _ => rfl
  | a :: as => by
    intro h
    cases as with
    | nil =>
      have ha := h a (by simp)
      simp [dropTrailingWs_cons, dropTrailingWs, ha]
    | cons b bs =>
      have has : dropTrailingWs (b :: bs) = b :: bs :=
        dropTrailingWs_fix (b :: bs)
          (fun c hc => h c (by rw [List.getLast?_cons_cons]; exact hc))
      rw [dropTrailingWs_cons, has]
      rw [if_neg (by simp)]

theorem trimWs_wsNormed {l : List Char} (h : wsNormed l = true) :
    wsNormed (trimWs l) = true := by
  unfold trimWs
  exact prefix_wsNormed (dropTrailingWs_front _) (wsNormed_dropWhile l h)

theorem prefix_head {l' l : List Char} {c : Char} (h : l' <+: l)
    (hc : l'.head? = some c) : l.head? = some c := by
  obtain ⟨t, rfl⟩ := h
  cases l' with
  | nil => simp at hc
  | cons a as => simpa using hc

theorem trimWs_head_not {l : List Char} {c : Char} (h : (trimWs l).head? = some c) :
    isJsWs c = false := by
  unfold trimWs at h
  exact dropWhile_head_not l c (prefix_head (dropTrailingWs_front _) h)

theorem trimWs_last_not {l : List Char} {c : Char}
    (h : (trimWs l).getLast? = some c) : isJsWs c = false :=
  dropTrailingWs_last _ c h

theorem trimWs_mem {l : List Char} {c : Char} (h : c ∈ trimWs l) : c ∈ l := by
  unfold trimWs at h
  have h1 : c ∈ l.dropWhile isJsWs := (dropTrailingWs_front _).subset h
  exact (List.dropWhile_sublist _).subset h1

theorem trimWs_fix (l : List Char)
    (h1 : ∀ c, l.head? = some c → isJsWs c = false)
    (h2 : ∀ c, l.getLast? = some c → isJsWs c = false) : trimWs l = l := by
  unfold trimWs
  have hd : l.dropWhile isJsWs = l := by
    cases l with
    | nil => rfl
    | cons a as => exact List.dropWhile_cons_of_neg (by simp [h1 a rfl])
  rw [hd]
  exact dropTrailingWs_fix l h2

/-! ### Normalizer output invariants and idempotence -/

theorem mem_collapse_step4_good {l : List Char} {c : Char}
    (h : c ∈ collapseWs (l.map replaceChar)) : isGood c = true := by
  rcases collapseWs_mem _ c h with h' | ⟨hm, hw⟩
  · rw [h']
    decide
  · obtain ⟨d, _, rfl⟩ := List.mem_map.mp hm
    exact replaceChar_good hw

theorem normalizeL_good {l : List Char} : ∀ c ∈ normalizeL l, isGood c = true := by
  intro c hc
  unfold normalizeL at hc
  exact mem_collapse_step4_good (trimWs_mem hc)

theorem normalizeL_wsNormed (l : List Char) : wsNormed (normalizeL l) = true := by
  unfold normalizeL
  exact trimWs_wsNormed (collapseWs_wsNormed _)

theorem map_id_of_mem {l : List Char} {f : Char → Char} (h : ∀ c ∈ l, f c = c) :
    l.map f = l := by
  induction l with
  | nil => rfl
  | cons a as ih =>
    rw [List.map_cons, h a (by simp), ih (fun c hc => h c (List.mem_cons_of_mem a hc))]

theorem flatMap_id_of_mem : ∀ l : List Char, (∀ c ∈ l, nfdChar c = [c]) →
    l.flatMap nfdChar = l
  | [], _ => rfl
  | a :: as, h => by
    rw [List.flatMap_cons, h a (by simp),
      flatMap_id_of_mem as (fun c hc => h c (List.mem_cons_of_mem a hc))]
    rfl

theorem step123_id {l : List Char} (h : ∀ c ∈ l, isGood c = true) : step123 l = l := by
  unfold step123
  rw [map_id_of_mem (fun c hc => good_jsLowerChar (h c hc))]
  rw [flatMap_id_of_mem l (fun c hc => good_nfdChar (h c hc))]
  rw [List.filter_eq_self.mpr ?_]
  intro a ha
  rw [good_notCombining (h a ha)]
  rfl

theorem normalizeL_idem (l : List Char) : normalizeL (normalizeL l) = normalizeL l := by
  have hg : ∀ c ∈ normalizeL l, isGood c = true := normalizeL_good
  conv_lhs => rw [normalizeL]
  rw [step123_id hg]
  rw [map_id_of_mem (fun c hc => good_replaceChar (hg c hc))]
  rw [collapseWs_fix _ (normalizeL_wsNormed l)]
  exact trimWs_fix _ (fun c h => trimWs_head_not h) (fun c h => trimWs_last_not h)

theorem normalize_idem (s : String) : normalize (normalize s) = normalize s :=
  congrArg String.mk (normalizeL_idem s.data)

/-! ### Edit distance -/

theorem dpCell_symm (a b : List Char) : ∀ i j, dpCell a b i j = dpCell b a j i := by
  intro i j
  induction i, j using dpCell.induct a b with
  | case1 j =>
    cases j <;> simp [dpCell]
  | case2 i => simp [dpCell]
  | case3 i j ih1 ih2 ih3 =>
    simp only [dpCell]
    rw [ih1, ih2, ih3]
    have hcost : (if a.get? i = b.get? j then 0 else 1) =
        (if b.get? j = a.get? i then 0 else 1) := by
      by_cases h : a.get? i = b.get? j
      · rw [if_pos h, if_pos h.symm]
      · rw [if_neg h, if_neg (fun hh => h hh.symm)]
    rw [hcost]
    omega

theorem dpCell_ge (a b : List Char) : ∀ i j,
    j ≤ dpCell a b i j + i ∧ i ≤ dpCell a b i j + j := by
  intro i j
  induction i, j using dpCell.induct a b with
  | case1 j =>
    simp only [dpCell]
    omega
  | case2 i =>
    simp only [dpCell]
    omega
  | case3 i j ih1 ih2 ih3 =>
    simp only [dpCell]
    omega

theorem levList_symm (a b : List Char) : levList a b = levList b a := by
  unfold levList
  by_cases ha : a.length = 0 <;> by_cases hb : b.length = 0
  · rw [if_pos ha, if_pos hb, ha, hb]
  · rw [if_pos ha, if_neg hb, if_pos ha]
  · rw [if_neg ha, if_pos hb, if_pos hb]
  · rw [if_neg ha, if_neg hb, if_neg hb, if_neg ha, dpCell_symm]

theorem levList_nil_left (b : List Char) : levList [] b = b.length := by
  unfold levList
  simp

theorem levList_nil_right (a : List Char) : levList a [] = a.length := by
  unfold levList
  by_cases ha : a.length = 0
  · rw [if_pos ha]
    simp [ha]
  · rw [if_neg ha]
    simp

theorem normalize_empty : normalize "" = "" := rfl

theorem levenshtein_nil_right (a : String) : levenshtein a "" = (normalize a).length :=
  levList_nil_right (normalize a).data

theorem levenshtein_nil_left (b : String) : levenshtein "" b = (normalize b).length :=
  levList_nil_left (normalize b).data

theorem levList_ge (a b : List Char) : b.length ≤ levList a b + a.length := by
  unfold levList
  by_cases ha : a.length = 0
  · rw [if_pos ha]
    omega
  · rw [if_neg ha]
    by_cases hb : b.length = 0
    · rw [if_pos hb]
      omega
    · rw [if_neg hb]
      have h := (dpCell_ge a b a.length b.length).1
      omega

theorem levenshtein_ge (a b : String) :
    (normalize b).length ≤ levenshtein a b + (normalize a).length :=
  levList_ge (normalize a).data (normalize b).data

/-! ### The alias table is dead data: its key is never the looked-up one -/

theorem aliasesFor_samtek : aliasesFor (normalize samtek.region) = [] := by decide

theorem isAliasMatch_samtek_noAlias (input : String) :
    isAliasMatch input samtek.region = isAliasMatchNoAliasChecks input samtek.region := by
  unfold isAliasMatch isAliasMatchNoAliasChecks
  rw [aliasesFor_samtek]
  simp only [List.any_nil, Bool.or_false, Bool.false_or]

theorem find?_alias_eq (input : String) :
    serviceCenters.find? (fun sc => isAliasMatch input sc.region) =
    serviceCenters.find? (fun sc => isAliasMatchNoAliasChecks input sc.region) := by
  simp only [serviceCenters, List.find?]
  rw [isAliasMatch_samtek_noAlias input]

/-- C2: for every input string, `findByRegionFlexible` agrees with the
variant of itself whose two alias-based checks are deleted, because
`REGION_ALIASES` is keyed by the raw accented region string while
`isAliasMatch` looks the normalized key up, so the retrieved alias list
is always empty. -/
theorem alias_checks_never_fire :
    (serviceCenters.all (fun sc => aliasesFor (normalize sc.region) == []) = true) ∧
    ∀ input : String,
      findByRegionFlexible input = findByRegionFlexibleNoAliasChecks input := by
  refine ⟨by decide, fun input => ?_⟩
  unfold findByRegionFlexible findByRegionFlexibleIn findByRegionFlexibleNoAliasChecks
  rw [find?_alias_eq input]

/-- C6: `normalize` is idempotent. -/
theorem normalize_idempotent_claim :
    ∀ s : String, normalize (normalize s) = normalize s :=
  normalize_idem

/-- C7: `levenshtein` normalizes its inputs and satisfies the base
cases: against an empty second argument it returns the length of the
normalized first argument, and symmetrically. -/
theorem distance_base_cases :
    (∀ a : String, levenshtein a "" = (normalize a).length) ∧
    (∀ b : String, levenshtein "" b = (normalize b).length) :=
  ⟨levenshtein_nil_right, levenshtein_nil_left⟩

/-- C8: `levenshtein` is symmetric. -/
theorem distance_symmetric : ∀ a b : String, levenshtein a b = levenshtein b a :=
  fun _ _ => levList_symm _ _

theorem normalize_head_ne_space (s : String) :
    ((normalize s).data.head? == some ' ') = false := by
  cases hh : (normalize s).data.head? with
  | none => rfl
  | some c =>
    have hc : isJsWs c = false := trimWs_head_not hh
    rw [beq_eq_false_iff_ne]
    intro he
    injection he with he'
    rw [he', isJsWs_space] at hc
    cases hc

theorem normalize_last_ne_space (s : String) :
    ((normalize s).data.getLast? == some ' ') = false := by
  cases hh : (normalize s).data.getLast? with
  | none => rfl
  | some c =>
    have hc : isJsWs c = false := trimWs_last_not hh
    rw [beq_eq_false_iff_ne]
    intro he
    injection he with he'
    rw [he', isJsWs_space] at hc
    cases hc

/-- C3: `normalize` keeps only lowercase ASCII letters, digits and
single interior spaces — punctuation becomes spaces, whitespace runs
collapse and the ends are trimmed — and on the concrete example
`"Santiago, Chile!"` it returns `"santiago chile"`. -/
theorem normalize_strips_punctuation :
    normalize "Santiago, Chile!" = "santiago chile" ∧
    ∀ s : String,
      ((normalize s).data.all isGood && wsNormed (normalize s).data &&
       !((normalize s).data.head? == some ' ') &&
       !((normalize s).data.getLast? == some ' ')) = true := by
  refine ⟨by decide, fun s => ?_⟩
  have hg : (normalize s).data.all isGood = true :=
    List.all_eq_true.mpr (fun c hc => normalizeL_good c hc)
  have hw : wsNormed (normalize s).data = true := normalizeL_wsNormed s.data
  rw [Bool.and_eq_true, Bool.and_eq_true, Bool.and_eq_true]
  refine ⟨⟨⟨hg, hw⟩, ?_⟩, ?_⟩
  · rw [Bool.not_eq_true', normalize_head_ne_space]
  · rw [Bool.not_eq_true', normalize_last_ne_space]

/-! ### Priority order of the matcher -/

theorem find?_first {α : Type} (p : α → Bool) :
    ∀ (pre : List α) (e : α) (post : List α), p e = true →
      (∀ x ∈ pre, p x = false) → (pre ++ e :: post).find? p = some e
  | [], e, post, he, _ => by
    rw [List.nil_append]
    exact List.find?_cons_of_pos _ he
  | a :: pre, e, post, he, hpre => by
    rw [List.cons_append, List.find?_cons_of_neg _ (by simp [hpre a (by simp)])]
    exact find?_first p pre e post he (fun x hx => hpre x (List.mem_cons_of_mem a hx))

/-- C4: the matcher tries its strategies in fixed priority order with
short-circuit — whenever some entry matches the input exactly on
canonical keys, the result is the first such entry in catalog order,
regardless of the alias/substring/fuzzy pass; and when no entry matches
exactly, the result is the first entry in catalog order satisfying
`isAliasMatch`. -/
theorem resolve_priority_order :
    (∀ (cat pre post : List ServiceCenter) (e : ServiceCenter) (input : String),
      cat = pre ++ e :: post →
      normalize e.region = normalize input →
      (∀ x ∈ pre, normalize x.region ≠ normalize input) →
      findByRegionFlexibleIn cat input = some e) ∧
    (∀ (cat pre post : List ServiceCenter) (e : ServiceCenter) (input : String),
      cat = pre ++ e :: post →
      (∀ x ∈ cat, normalize x.region ≠ normalize input) →
      isAliasMatch input e.region = true →
      (∀ x ∈ pre, isAliasMatch input x.region = false) →
      findByRegionFlexibleIn cat input = some e) := by
  constructor
  · intro cat pre post e input hcat he hpre
    subst hcat
    unfold findByRegionFlexibleIn
    rw [find?_first _ pre e post (by rw [beq_iff_eq]; exact he)
      (fun x hx => beq_eq_false_iff_ne.mpr (hpre x hx))]
  · intro cat pre post e input hcat hnone he hpre
    subst hcat
    unfold findByRegionFlexibleIn
    have h1 : (pre ++ e :: post).find?
        (fun sc => normalize sc.region == normalize input) = none := by
      rw [List.find?_eq_none]
      intro x hx hbeq
      exact hnone x hx (by simpa using hbeq)
    rw [h1, find?_first _ pre e post he hpre]

set_option maxHeartbeats 2000000 in
/-- Witness for C4: the exact-match branch at the real catalog and the
exact region name, and the alias branch at the input "santiago". -/
theorem resolve_priority_order_witness :
    findByRegionFlexibleIn serviceCenters "Región Metropolitana de Santiago" =
      some samtek ∧
    findByRegionFlexibleIn serviceCenters "santiago" = some samtek :=
  ⟨resolve_priority_order.1 serviceCenters [] [] samtek
      "Región Metropolitana de Santiago" rfl (by decide) (by simp),
   resolve_priority_order.2 serviceCenters [] [] samtek "santiago" rfl
      (by decide) (by decide) (by simp)⟩

/-! ### The substring gate -/

/-- C5: the substring-containment clause is gated on a normalized input
length of at least 6 — below the gate a match can only come from one of
the other clauses, and at or above the gate containment in either
direction suffices for a match. -/
theorem substring_gate :
    (∀ input regionName : String, (normalize input).length < 6 →
      isAliasMatch input regionName = true →
      (normalize input == normalize regionName) = true ∨
      ((aliasesFor (normalize regionName)).any
        (fun a => normalize a == normalize input)) = true ∨
      levenshtein (normalize input) (normalize regionName) ≤ 2 ∨
      ((aliasesFor (normalize regionName)).any
        (fun a => decide (levenshtein (normalize input) a ≤ 2))) = true) ∧
    (∀ input regionName : String, 6 ≤ (normalize input).length →
      (includesStr (normalize regionName) (normalize input) ||
       includesStr (normalize input) (normalize regionName)) = true →
      isAliasMatch input regionName = true) := by
  constructor
  · intro input r hlen h
    unfold isAliasMatch at h
    rw [decide_eq_false (by omega), Bool.false_and] at h
    simp only [Bool.or_false, Bool.or_eq_true, decide_eq_true_eq] at h
    rcases h with ((h | h) | h) | h
    · exact Or.inl h
    · exact Or.inr (Or.inl h)
    · exact Or.inr (Or.inr (Or.inl h))
    · exact Or.inr (Or.inr (Or.inr h))
  · intro input r hlen hsub
    unfold isAliasMatch
    rw [decide_eq_true hlen, hsub]
    simp only [Bool.and_self, Bool.or_true, Bool.true_or]

/-- Witness for C5: a 1-character input that matches through the exact
clause, and a 6-character input matching through containment. -/
theorem substring_gate_witness :
    ((normalize "x").length < 6 ∧
      ((normalize "x" == normalize "x") = true ∨
       ((aliasesFor (normalize "x")).any
         (fun a => normalize a == normalize "x")) = true ∨
       levenshtein (normalize "x") (normalize "x") ≤ 2 ∨
       ((aliasesFor (normalize "x")).any
         (fun a => decide (levenshtein (normalize "x") a ≤ 2))) = true)) ∧
    (6 ≤ (normalize "abcdef").length ∧ isAliasMatch "abcdef" "abcdefg" = true) :=
  ⟨⟨by decide, substring_gate.1 "x" "x" (by decide) (by decide)⟩,
   ⟨by decide, substring_gate.2 "abcdef" "abcdefg" (by decide) (by decide)⟩⟩

/-! ### Inputs no strategy matches -/

theorem lev_rm_region :
    ¬ (levenshtein (normalize "rm") (normalize samtek.region) ≤ 2) := by
  have h := levenshtein_ge (normalize "rm") (normalize samtek.region)
  have h1 : (normalize (normalize "rm")).length = 2 := by decide
  have h2 : (normalize (normalize samtek.region)).length = 32 := by decide
  omega

theorem isAliasMatch_rm : isAliasMatch "rm" samtek.region = false := by
  rw [isAliasMatch_samtek_noAlias]
  unfold isAliasMatchNoAliasChecks
  have h1 : (normalize "rm" == normalize samtek.region) = false := by decide
  have h3 : decide (6 ≤ (normalize "rm").length) = false := by decide
  rw [h1, h3, decide_eq_false lev_rm_region, Bool.false_and, Bool.or_false,
    Bool.false_or]

/-- C1 evaluated on the code: `findByRegionFlexible "rm"` returns `none`,
not the SAMTEK entry — the alias table lookup misses because its key is
the raw accented region string, and no other strategy accepts "rm". -/
theorem resolve_rm_returns_none : findByRegionFlexible "rm" = none := by
  have h1 : serviceCenters.find?
      (fun sc => normalize sc.region == normalize "rm") = none := by decide
  have h2 : serviceCenters.find?
      (fun sc => isAliasMatch "rm" sc.region) = none := by
    simp only [serviceCenters, List.find?]
    rw [isAliasMatch_rm]
  unfold findByRegionFlexible findByRegionFlexibleIn
  rw [h1, h2]

theorem lev_valpo_region :
    ¬ (levenshtein (normalize "Valparaíso") (normalize samtek.region) ≤ 2) := by
  have h := levenshtein_ge (normalize "Valparaíso") (normalize samtek.region)
  have h1 : (normalize (normalize "Valparaíso")).length = 10 := by decide
  have h2 : (normalize (normalize samtek.region)).length = 32 := by decide
  omega

theorem isAliasMatch_valpo : isAliasMatch "Valparaíso" samtek.region = false := by
  rw [isAliasMatch_samtek_noAlias]
  unfold isAliasMatchNoAliasChecks
  have h1 : (normalize "Valparaíso" == normalize samtek.region) = false := by decide
  have h3 : (includesStr (normalize samtek.region) (normalize "Valparaíso") ||
      includesStr (normalize "Valparaíso") (normalize samtek.region)) = false := by
    decide
  rw [h1, h3, decide_eq_false lev_valpo_region, Bool.and_false, Bool.or_false,
    Bool.false_or]

theorem valpo_alias_find?_none :
    serviceCenters.find? (fun sc => isAliasMatch "Valparaíso" sc.region) = none := by
  simp only [serviceCenters, List.find?]
  rw [isAliasMatch_valpo]

/-- C9: when no strategy matches, the matcher returns the not-found
signal (`none`) as an ordinary value; in particular
`findByRegionFlexible "Valparaíso"` returns `none`. -/
theorem resolve_valparaiso_notfound :
    findByRegionFlexible "Valparaíso" = none ∧
    ∀ input : String,
      serviceCenters.find? (fun sc => normalize sc.region == normalize input) = none →
      serviceCenters.find? (fun sc => isAliasMatch input sc.region) = none →
      findByRegionFlexible input = none := by
  have gen : ∀ input : String,
      serviceCenters.find? (fun sc => normalize sc.region == normalize input) = none →
      serviceCenters.find? (fun sc => isAliasMatch input sc.region) = none →
      findByRegionFlexible input = none := by
    intro input h1 h2
    unfold findByRegionFlexible findByRegionFlexibleIn
    rw [h1, h2]
  exact ⟨gen "Valparaíso" (by decide) valpo_alias_find?_none, gen⟩

/-- Witness for C9: both hypotheses are discharged at the concrete input
"Valparaíso". -/
theorem resolve_valparaiso_notfound_witness :
    findByRegionFlexible "Valparaíso" = none :=
  resolve_valparaiso_notfound.2 "Valparaíso" (by decide) valpo_alias_find?_none

/-- C10: the matcher is total — on the empty string it terminates and
returns `none`, and on every string it returns either `none` or an entry
of the catalog. -/
theorem resolve_total :
    findByRegionFlexible "" = none ∧
    ∀ input : String, findByRegionFlexible input = none ∨
      ∃ sc ∈ serviceCenters, findByRegionFlexible input = some sc := by
  constructor
  · decide
  · intro input
    unfold findByRegionFlexible findByRegionFlexibleIn
    cases h1 : serviceCenters.find?
        (fun sc => normalize sc.region == normalize input) with
    | none =>
      cases h2 : serviceCenters.find? (fun sc => isAliasMatch input sc.region) with
      | none =>
        left
        rfl
      | some m2 =>
        right
        exact ⟨m2, List.mem_of_find?_eq_some h2, rfl⟩
    | some m =>
      right
      exact ⟨m, List.mem_of_find?_eq_some h1, rfl⟩

end SvcCenter
